import Mathlib

/-!
Shallow embedding of `src/Vector/vector.h` (template classes `RawMemory<T>` and
`Vector<T>`).

A `Vector` state is modelled by the list of its live elements (the constructed
objects in slots `[0, size_)`) together with `cap`, the capacity of the owned
`RawMemory` buffer (`data_.Capacity()`).  `size_` is the length of `elems`.

Pure definitions model the success paths of the C++ operations.  The `...F`
definitions model the failure paths: element copy construction / copy
assignment is a fallible function `copy : α → Option α` (`none` = the copy
threw), `alloc : Bool` models whether the `RawMemory` allocation succeeds, and
`mk : Option α` models the (possibly throwing) construction of a new element
from the caller's arguments.  A fallible operation returns
`Except (Vector α × List α) (Vector α)`: on error it carries the container
state after stack unwinding together with the list of objects that were
constructed in the abandoned new buffer and whose destructor never runs
(leaked temporaries).
-/

namespace VecModel

structure Vector (α : Type) where
  elems : List α
  cap : Nat
deriving DecidableEq

variable {α : Type}

/-- `Size()`: the number of live elements (`size_`). -/
def Vector.size (v : Vector α) : Nat := v.elems.length

/-- The container invariant: `0 ≤ size ≤ capacity` (the lower bound is
automatic for `Nat`). -/
def Vector.Wf (v : Vector α) : Prop := v.size ≤ v.cap

instance (v : Vector α) : Decidable v.Wf :=
  inferInstanceAs (Decidable (v.size ≤ v.cap))

/-- `Vector()`: default construction, empty with a null buffer. -/
def Vector.mkDefault (α : Type) : Vector α := ⟨[], 0⟩

/-- `Vector(size_t size)`: allocates `size` slots and value-constructs each;
`d` is the value produced by value construction of `T`. -/
def Vector.mkSized (d : α) (n : Nat) : Vector α := ⟨List.replicate n d, n⟩

/-- `Vector(const Vector&)`: allocates `other.size_` slots (not
`other.Capacity()`) and copy-constructs the elements. -/
def Vector.copyCtor (v : Vector α) : Vector α := ⟨v.elems, v.size⟩

/-- `Vector(Vector&&)`: the new vector takes the source's buffer and size;
`RawMemory::operator=(RawMemory&&)` nulls the source buffer and zeroes its
capacity, and `std::exchange` zeroes the source size.  Returns
`(new vector, moved-from source)`. -/
def Vector.moveCtor (v : Vector α) : Vector α × Vector α :=
  (⟨v.elems, v.cap⟩, ⟨[], 0⟩)

/-- `operator=(const Vector&)`: if the source does not fit in the destination
buffer, copy-and-swap (capacity becomes `rhs.size_`); otherwise the elements
are copied into the existing buffer and the capacity is kept. -/
def Vector.copyAssign (dst src : Vector α) : Vector α :=
  if src.size > dst.cap then ⟨src.elems, src.size⟩
  else ⟨src.elems, dst.cap⟩

/-- `operator=(Vector&&)`: destination takes the source's buffer, capacity and
size; the source is left empty with a null buffer. -/
def Vector.moveAssign (dst src : Vector α) : Vector α × Vector α :=
  (⟨src.elems, src.cap⟩, ⟨[], 0⟩)

/-- `Swap`: exchanges buffers (address and capacity) and sizes. -/
def Vector.swapOp (a b : Vector α) : Vector α × Vector α := (b, a)

/-- `Reserve`: no-op when `new_capacity <= Capacity()`, otherwise allocates a
buffer of exactly `new_capacity` and transfers the elements
(`CopyOrMoveData`). -/
def Vector.Reserve (n : Nat) (v : Vector α) : Vector α :=
  if n ≤ v.cap then v else ⟨v.elems, n⟩

/-- `Resize`: equal size is a no-op; a smaller size destroys the tail
`[new_size, size_)`; a larger size reserves and value-constructs the new
slots with `d`. -/
def Vector.Resize (d : α) (n : Nat) (v : Vector α) : Vector α :=
  if n = v.size then v
  else if n < v.size then ⟨v.elems.take n, v.cap⟩
  else ⟨v.elems ++ List.replicate (n - v.size) d, (v.Reserve n).cap⟩

/-- `EmplaceBack`: when full, allocates `size_ == 0 ? 1 : size_ * 2` slots,
constructs the new element at offset `size_` of the new buffer, then
transfers the old elements before it; with spare capacity it constructs in
place at `[size_]`.  (When `size_ > Capacity()` — impossible under `Wf` —
neither branch runs.) -/
def Vector.EmplaceBack (x : α) (v : Vector α) : Vector α :=
  if v.size = v.cap then
    ⟨v.elems ++ [x], if v.size = 0 then 1 else v.size * 2⟩
  else if v.size < v.cap then ⟨v.elems ++ [x], v.cap⟩
  else v

/-- The reference returned by `EmplaceBack`: `data_[size_ - 1]` after the
increment of `size_`. -/
def Vector.emplaceBackRef (x : α) (v : Vector α) : Option α :=
  (v.EmplaceBack x).elems[(v.EmplaceBack x).size - 1]?

/-- `PushBack(value)` forwards to `EmplaceBack`. -/
def Vector.PushBack (x : α) (v : Vector α) : Vector α := v.EmplaceBack x

/-- `PopBack`: destroys the last live element and decrements `size_`
(precondition `size_ > 0`, per the assert). -/
def Vector.PopBack (v : Vector α) : Vector α := ⟨v.elems.dropLast, v.cap⟩

/-- `Emplace(pos, args...)` with `shift_pos = pos - begin() = p`.  When full:
new buffer of `size_ == 0 ? 1 : size_ * 2` slots, new element constructed at
offset `p`, prefix `[0, p)` transferred before it and suffix `[p, size_)`
after it (`CopyOrMovePartData`).  With spare capacity: construct at the tail
when `pos == end()`, otherwise construct a temporary, move the last element
up, shift `[p, size_ - 1)` one slot right back-to-front, and move-assign the
temporary into slot `p`. -/
def Vector.Emplace (p : Nat) (x : α) (v : Vector α) : Vector α :=
  if v.size = v.cap then
    ⟨v.elems.take p ++ x :: v.elems.drop p, if v.size = 0 then 1 else v.size * 2⟩
  else if v.size < v.cap then
    if p = v.size then ⟨v.elems ++ [x], v.cap⟩
    else ⟨v.elems.take p ++ x :: v.elems.drop p, v.cap⟩
  else v

/-- `Insert(pos, value)` forwards to `Emplace`. -/
def Vector.Insert (p : Nat) (x : α) (v : Vector α) : Vector α := v.Emplace p x

/-- `Erase(pos)` with `p = pos - begin()`: move-assigns each element of
`(p, size_)` one slot left, destroys the final slot, decrements `size_`. -/
def Vector.Erase (p : Nat) (v : Vector α) : Vector α :=
  ⟨v.elems.take p ++ v.elems.drop (p + 1), v.cap⟩

/-- The iterator returned by `Erase`, as an offset from `begin()`: `end()`
(offset `size_`) when the vector became empty, otherwise `pos` (offset `p`). -/
def Vector.eraseRet (p : Nat) (v : Vector α) : Nat :=
  if (v.Erase p).size = 0 then (v.Erase p).size else p

theorem mk_wf (l : List α) (c : Nat) (h : l.length ≤ c) : (Vector.mk l c).Wf := h

theorem size_mk (l : List α) (c : Nat) : (Vector.mk l c).size = l.length := rfl

/-! ### Failure paths

`std::uninitialized_copy_n` / `std::uninitialized_copy` copy the source range
element by element; if one copy construction throws, the copies already made
in the destination are destroyed (full rollback of this one call) and the
source is untouched.  `uninitializedCopyN copy l = none` models exactly that
outcome. -/

def uninitializedCopyN (copy : α → Option α) : List α → Option (List α)
  | [] => some []
  | x :: xs =>
    match copy x with
    | none => none
    | some y =>
      match uninitializedCopyN copy xs with
      | none => none
      | some ys => some (y :: ys)

/-- The container state after a fallible operation (the state reached on the
failure path, or the final state on success). -/
def afterState : Except (Vector α × List α) (Vector α) → Vector α
  | .ok u => u
  | .error (u, _) => u

/-- The objects left constructed in a deallocated buffer on the failure path
(their destructors never run). -/
def leakedObjs : Except (Vector α × List α) (Vector α) → List α
  | .ok _ => []
  | .error (_, l) => l

/-- `Reserve` with fallible allocation and element copies (the
`std::uninitialized_copy_n` branch of `CopyOrMoveData`).  On any failure the
new buffer is deallocated with no constructed object left in it and the
vector is untouched. -/
def Vector.reserveF (copy : α → Option α) (alloc : Bool) (n : Nat)
    (v : Vector α) : Except (Vector α × List α) (Vector α) :=
  if n ≤ v.cap then .ok v
  else if !alloc then .error (v, [])
  else
    match uninitializedCopyN copy v.elems with
    | none => .error (v, [])
    | some ys => .ok ⟨ys, n⟩

/-- `EmplaceBack` with fallible allocation, element construction (`mk`) and
element copies.  On the growth path the new element is constructed at offset
`size_` of the new buffer before `CopyOrMoveData` runs; if the transfer then
fails, unwinding frees the new buffer without destroying that element, so it
is reported leaked. -/
def Vector.emplaceBackF (copy : α → Option α) (alloc : Bool) (mk : Option α)
    (v : Vector α) : Except (Vector α × List α) (Vector α) :=
  if v.size = v.cap then
    if !alloc then .error (v, [])
    else
      match mk with
      | none => .error (v, [])
      | some x =>
        match uninitializedCopyN copy v.elems with
        | none => .error (v, [x])
        | some ys => .ok ⟨ys ++ [x], if v.size = 0 then 1 else v.size * 2⟩
  else if v.size < v.cap then
    match mk with
    | none => .error (v, [])
    | some x => .ok ⟨v.elems ++ [x], v.cap⟩
  else .ok v

/-- The growth path of `Emplace` with fallible allocation, construction and
copies (`CopyOrMovePartData`).  The new element is constructed at offset `p`
first; then the prefix `[0, p)` is copied, then the suffix `[p, size_)`.
Each `std::uninitialized_copy` rolls back only its own copies, so when the
suffix copy fails, the new element and the already-copied prefix are all
leaked in the freed buffer. -/
def Vector.emplaceF (copy : α → Option α) (alloc : Bool) (mk : Option α)
    (p : Nat) (v : Vector α) : Except (Vector α × List α) (Vector α) :=
  if v.size = v.cap then
    if !alloc then .error (v, [])
    else
      match mk with
      | none => .error (v, [])
      | some x =>
        match uninitializedCopyN copy (v.elems.take p) with
        | none => .error (v, [x])
        | some pre =>
          match uninitializedCopyN copy (v.elems.drop p) with
          | none => .error (v, x :: pre)
          | some suf =>
            .ok ⟨pre ++ x :: suf, if v.size = 0 then 1 else v.size * 2⟩
  else if v.size < v.cap then
    match mk with
    | none => .error (v, [])
    | some x =>
      if p = v.size then .ok ⟨v.elems ++ [x], v.cap⟩
      else .ok ⟨v.elems.take p ++ x :: v.elems.drop p, v.cap⟩
  else .ok v

/-- `Resize` with fallible growth: `Reserve` may fail as in `reserveF`, and
the value construction of the new slots may fail (`ctorOk = false`), in which
case `std::uninitialized_value_construct_n` rolls back its own constructions
and `size_` is never updated, leaving the reserved capacity with the old
elements. -/
def Vector.resizeF (copy : α → Option α) (alloc : Bool) (ctorOk : Bool)
    (d : α) (n : Nat) (v : Vector α) : Except (Vector α × List α) (Vector α) :=
  if n = v.size then .ok v
  else if n < v.size then .ok ⟨v.elems.take n, v.cap⟩
  else
    match v.reserveF copy alloc n with
    | .error e => .error e
    | .ok u =>
      if ctorOk then .ok ⟨u.elems ++ List.replicate (n - u.size) d, u.cap⟩
      else .error (u, [])

/-- The slot values of a length-`n` live range after `k` successful
move-assignments of the backward shift `std::move_backward(pos, end() - 1,
end())` in the in-place branch of `Emplace`: the last `k` slots hold their
left neighbour's value and `size_` is unchanged. -/
def partialShiftR (l : List α) (k : Nat) : List α :=
  l.take (l.length - k) ++ (l.drop (l.length - 1 - k)).take k

/-- The container state when a move-assignment of the backward shift inside
the in-place branch of `Emplace` throws after `k` successful moves:
partially shifted values, same `size_`, same capacity. -/
def Vector.emplaceShiftF (k : Nat) (v : Vector α) : Vector α :=
  ⟨partialShiftR v.elems k, v.cap⟩

/-- The container state when a move-assignment of the leftward shift
`std::move(pos + 1, end(), pos)` inside `Erase` throws after `k` successful
moves: slots `[p, p + k)` already hold their right neighbour's value,
`size_` and the capacity are unchanged. -/
def Vector.eraseShiftF (p k : Nat) (v : Vector α) : Vector α :=
  ⟨v.elems.take p ++ (v.elems.drop (p + 1)).take k ++ v.elems.drop (p + k),
   v.cap⟩

/-- `operator=(const Vector&)` with fallible copies.  In the copy-and-swap
branch a failed copy leaves the destination untouched.  In the in-buffer
branch, `std::copy_n` may fail after `k` copy assignments (partially
overwritten prefix, `size_` unchanged), and the trailing
`std::uninitialized_copy_n` may fail after rolling back its own
constructions (prefix already assigned, `size_` unchanged). -/
def Vector.copyAssignF (copy : α → Option α) (dst src : Vector α) (k : Nat) :
    Except (Vector α × List α) (Vector α) :=
  if src.size > dst.cap then
    match uninitializedCopyN copy src.elems with
    | none => .error (dst, [])
    | some ys => .ok ⟨ys, src.size⟩
  else if k < min dst.size src.size then
    .error (⟨src.elems.take k ++ dst.elems.drop k, dst.cap⟩, [])
  else if src.size ≤ dst.size then .ok ⟨src.elems, dst.cap⟩
  else
    match uninitializedCopyN copy (src.elems.drop dst.size) with
    | none => .error (⟨src.elems.take dst.size, dst.cap⟩, [])
    | some ys => .ok ⟨src.elems.take dst.size ++ ys, dst.cap⟩

theorem uninitializedCopyN_length (copy : α → Option α) :
    ∀ l ys, uninitializedCopyN copy l = some ys → ys.length = l.length := by
  intro l
  induction l with
  | nil => intro ys h; simp [uninitializedCopyN] at h; simp [← h]
  | cons x xs ih =>
    intro ys h
    simp only [uninitializedCopyN] at h
    cases hx : copy x with
    | none => rw [hx] at h; exact absurd h (by simp)
    | some y =>
      rw [hx] at h
      cases hys : uninitializedCopyN copy xs with
      | none => rw [hys] at h; exact absurd h (by simp)
      | some zs =>
        rw [hys] at h
        simp only [Option.some.injEq] at h
        subst h
        simp [ih zs hys]

theorem partialShiftR_length (l : List α) (k : Nat) :
    (partialShiftR l k).length = l.length := by
  simp only [partialShiftR, List.length_append, List.length_take,
    List.length_drop]
  omega

theorem eraseShiftF_length_le (v : Vector α) (p k : Nat) :
    (v.eraseShiftF p k).size ≤ v.size := by
  simp only [Vector.eraseShiftF, Vector.size, List.length_append,
    List.length_take, List.length_drop]
  omega

/-! ### Invariant preservation, one lemma per operation -/

theorem wf_mkDefault : (Vector.mkDefault α).Wf := by
  simp [Vector.mkDefault, Vector.Wf, Vector.size]

theorem wf_mkSized (d : α) (n : Nat) : (Vector.mkSized d n).Wf := by
  simp [Vector.mkSized, Vector.Wf, Vector.size]

theorem wf_copyCtor (v : Vector α) : v.copyCtor.Wf := by
  simp [Vector.copyCtor, Vector.Wf, Vector.size]

theorem wf_moveCtor (v : Vector α) (hv : v.Wf) :
    (v.moveCtor).1.Wf ∧ (v.moveCtor).2.Wf := by
  exact ⟨hv, by simp [Vector.moveCtor, Vector.Wf, Vector.size]⟩

theorem wf_copyAssign (dst src : Vector α) : (Vector.copyAssign dst src).Wf := by
  unfold Vector.copyAssign
  split
  · simp [Vector.Wf, Vector.size]
  · rename_i h
    simpa [Vector.Wf, Vector.size] using Nat.le_of_not_lt h

theorem wf_moveAssign (dst src : Vector α) (hsrc : src.Wf) :
    (Vector.moveAssign dst src).1.Wf ∧ (Vector.moveAssign dst src).2.Wf :=
  ⟨hsrc, by simp [Vector.moveAssign, Vector.Wf, Vector.size]⟩

theorem wf_swapOp (a b : Vector α) (ha : a.Wf) (hb : b.Wf) :
    (Vector.swapOp a b).1.Wf ∧ (Vector.swapOp a b).2.Wf := ⟨hb, ha⟩

theorem wf_Reserve (n : Nat) (v : Vector α) (hv : v.Wf) : (v.Reserve n).Wf := by
  unfold Vector.Reserve
  split
  · exact hv
  · rename_i h
    simp only [Vector.Wf, Vector.size] at *
    omega

theorem cap_le_Reserve (n : Nat) (v : Vector α) :
    v.cap ≤ (v.Reserve n).cap ∧ n ≤ (v.Reserve n).cap := by
  unfold Vector.Reserve
  split
  · rename_i h
    exact ⟨le_refl _, h⟩
  · rename_i h
    exact ⟨show v.cap ≤ n by omega, le_refl _⟩

theorem wf_Resize (d : α) (n : Nat) (v : Vector α) (hv : v.Wf) :
    (v.Resize d n).Wf := by
  unfold Vector.Resize
  split
  · exact hv
  · split
    · rename_i h1 h2
      simp only [Vector.Wf, Vector.size, List.length_take] at *
      omega
    · rename_i h1 h2
      have hc := cap_le_Reserve n v
      simp only [Vector.Wf, Vector.size, List.length_append,
        List.length_replicate] at *
      omega

theorem wf_EmplaceBack (x : α) (v : Vector α) (hv : v.Wf) :
    (v.EmplaceBack x).Wf := by
  unfold Vector.EmplaceBack
  split
  · rename_i h
    simp only [Vector.Wf, Vector.size, List.length_append, List.length_cons,
      List.length_nil] at *
    split <;> omega
  · split
    · rename_i h1 h2
      simp only [Vector.Wf, Vector.size, List.length_append, List.length_cons,
        List.length_nil] at *
      omega
    · exact hv

theorem wf_PopBack (v : Vector α) (hv : v.Wf) : v.PopBack.Wf := by
  simp only [Vector.PopBack, Vector.Wf, Vector.size, List.length_dropLast] at *
  omega

theorem wf_Emplace (p : Nat) (x : α) (v : Vector α) (hv : v.Wf) :
    (v.Emplace p x).Wf := by
  unfold Vector.Emplace
  split
  · rename_i h
    simp only [Vector.Wf, Vector.size, List.length_append, List.length_cons,
      List.length_take, List.length_drop] at *
    split <;> omega
  · split
    · split
      · rename_i h1 h2 h3
        simp only [Vector.Wf, Vector.size, List.length_append, List.length_cons,
          List.length_nil] at *
        omega
      · rename_i h1 h2 h3
        simp only [Vector.Wf, Vector.size, List.length_append, List.length_cons,
          List.length_take, List.length_drop] at *
        omega
    · exact hv

theorem wf_Erase (p : Nat) (v : Vector α) (hv : v.Wf) : (v.Erase p).Wf := by
  simp only [Vector.Erase, Vector.Wf, Vector.size, List.length_append,
    List.length_take, List.length_drop] at *
  omega

/-! Inversion lemmas for the fallible operations: what the error and success
results can look like.  These also carry exactly the leak information that the
error-handling analysis needs. -/

theorem reserveF_error (copy : α → Option α) (alloc : Bool) (n : Nat)
    (v : Vector α) (e : Vector α × List α)
    (h : v.reserveF copy alloc n = .error e) : e = (v, []) := by
  unfold Vector.reserveF at h
  split at h
  · exact Except.noConfusion h
  · split at h
    · injection h with h
      exact h.symm
    · split at h
      · injection h with h
        exact h.symm
      · exact Except.noConfusion h

theorem reserveF_ok (copy : α → Option α) (alloc : Bool) (n : Nat)
    (v u : Vector α) (h : v.reserveF copy alloc n = .ok u) :
    u.size = v.size ∧ v.cap ≤ u.cap ∧ n ≤ u.cap := by
  unfold Vector.reserveF at h
  split at h
  · rename_i hc
    injection h with h
    subst h
    exact ⟨rfl, le_refl _, hc⟩
  · split at h
    · exact Except.noConfusion h
    · rename_i hc _
      split at h
      · exact Except.noConfusion h
      · rename_i ys hys
        injection h with h
        subst h
        refine ⟨?_, show v.cap ≤ n by omega, le_refl _⟩
        simpa [Vector.size] using uninitializedCopyN_length copy v.elems ys hys

theorem emplaceBackF_error (copy : α → Option α) (alloc : Bool)
    (mk : Option α) (v : Vector α) (e : Vector α × List α)
    (h : v.emplaceBackF copy alloc mk = .error e) :
    e = (v, []) ∨ ∃ y, mk = some y ∧ e = (v, [y]) := by
  unfold Vector.emplaceBackF at h
  split at h
  · split at h
    · injection h with h
      exact .inl h.symm
    · split at h
      · injection h with h
        exact .inl h.symm
      · rename_i x
        split at h
        · injection h with h
          exact .inr ⟨x, rfl, h.symm⟩
        · exact Except.noConfusion h
  · split at h
    · split at h
      · injection h with h
        exact .inl h.symm
      · exact Except.noConfusion h
    · exact Except.noConfusion h

theorem emplaceBackF_ok_wf (copy : α → Option α) (alloc : Bool)
    (mk : Option α) (v u : Vector α) (hv : v.Wf)
    (h : v.emplaceBackF copy alloc mk = .ok u) : u.Wf := by
  unfold Vector.emplaceBackF at h
  split at h
  · rename_i hfull
    split at h
    · exact Except.noConfusion h
    · split at h
      · exact Except.noConfusion h
      · rename_i x
        split at h
        · exact Except.noConfusion h
        · rename_i ys hys
          injection h with h
          subst h
          have hl := uninitializedCopyN_length copy v.elems ys hys
          simp only [Vector.Wf, Vector.size, List.length_append,
            List.length_cons, List.length_nil] at *
          split <;> omega
  · split at h
    · rename_i h1 h2
      split at h
      · exact Except.noConfusion h
      · injection h with h
        subst h
        simp only [Vector.Wf, Vector.size, List.length_append,
          List.length_cons, List.length_nil] at *
        omega
    · injection h with h
      subst h
      exact hv

theorem emplaceF_error (copy : α → Option α) (alloc : Bool) (mk : Option α)
    (p : Nat) (v : Vector α) (e : Vector α × List α)
    (h : v.emplaceF copy alloc mk p = .error e) :
    e = (v, []) ∨ ∃ y, mk = some y ∧
      (e = (v, [y]) ∨ ∃ pre, uninitializedCopyN copy (v.elems.take p) = some pre ∧
        e = (v, y :: pre)) := by
  unfold Vector.emplaceF at h
  split at h
  · split at h
    · injection h with h
      exact .inl h.symm
    · split at h
      · injection h with h
        exact .inl h.symm
      · rename_i x
        split at h
        · injection h with h
          exact .inr ⟨x, rfl, .inl h.symm⟩
        · rename_i pre hpre
          split at h
          · injection h with h
            exact .inr ⟨x, rfl, .inr ⟨pre, hpre, h.symm⟩⟩
          · exact Except.noConfusion h
  · split at h
    · split at h
      · injection h with h
        exact .inl h.symm
      · split at h <;> exact Except.noConfusion h
    · exact Except.noConfusion h

theorem emplaceF_ok_wf (copy : α → Option α) (alloc : Bool) (mk : Option α)
    (p : Nat) (v u : Vector α) (hv : v.Wf)
    (h : v.emplaceF copy alloc mk p = .ok u) : u.Wf := by
  unfold Vector.emplaceF at h
  split at h
  · rename_i hfull
    split at h
    · exact Except.noConfusion h
    · split at h
      · exact Except.noConfusion h
      · rename_i x
        split at h
        · exact Except.noConfusion h
        · rename_i pre hpre
          split at h
          · exact Except.noConfusion h
          · rename_i suf hsuf
            injection h with h
            subst h
            have h1 := uninitializedCopyN_length copy (v.elems.take p) pre hpre
            have h2 := uninitializedCopyN_length copy (v.elems.drop p) suf hsuf
            simp only [Vector.Wf, Vector.size, List.length_append,
              List.length_cons, List.length_take, List.length_drop] at *
            split <;> omega
  · split at h
    · rename_i hne hlt
      split at h
      · exact Except.noConfusion h
      · split at h
        · injection h with h
          subst h
          simp only [Vector.Wf, Vector.size, List.length_append,
            List.length_cons, List.length_nil] at *
          omega
        · injection h with h
          subst h
          simp only [Vector.Wf, Vector.size, List.length_append,
            List.length_cons, List.length_take, List.length_drop] at *
          omega
    · injection h with h
      subst h
      exact hv

theorem wf_reserveF (copy : α → Option α) (alloc : Bool) (n : Nat)
    (v : Vector α) (hv : v.Wf) : (afterState (v.reserveF copy alloc n)).Wf := by
  cases hr : v.reserveF copy alloc n with
  | error e =>
    rw [reserveF_error copy alloc n v e hr]
    exact hv
  | ok u =>
    obtain ⟨h1, h2, h3⟩ := reserveF_ok copy alloc n v u hr
    simp only [afterState, Vector.Wf] at *
    omega

theorem wf_emplaceBackF (copy : α → Option α) (alloc : Bool) (mk : Option α)
    (v : Vector α) (hv : v.Wf) :
    (afterState (v.emplaceBackF copy alloc mk)).Wf := by
  cases hr : v.emplaceBackF copy alloc mk with
  | error e =>
    rcases emplaceBackF_error copy alloc mk v e hr with h | ⟨y, _, h⟩ <;>
      (subst h; exact hv)
  | ok u =>
    exact emplaceBackF_ok_wf copy alloc mk v u hv hr

theorem wf_emplaceF (copy : α → Option α) (alloc : Bool) (mk : Option α)
    (p : Nat) (v : Vector α) (hv : v.Wf) :
    (afterState (v.emplaceF copy alloc mk p)).Wf := by
  cases hr : v.emplaceF copy alloc mk p with
  | error e =>
    rcases emplaceF_error copy alloc mk p v e hr with h | ⟨y, _, h | ⟨pre, _, h⟩⟩ <;>
      (subst h; exact hv)
  | ok u =>
    exact emplaceF_ok_wf copy alloc mk p v u hv hr

theorem wf_resizeF (copy : α → Option α) (alloc : Bool) (ctorOk : Bool)
    (d : α) (n : Nat) (v : Vector α) (hv : v.Wf) :
    (afterState (v.resizeF copy alloc ctorOk d n)).Wf := by
  unfold Vector.resizeF
  split
  · exact hv
  · split
    · rename_i h1 h2
      simp only [afterState, Vector.Wf, Vector.size, List.length_take] at *
      omega
    · rename_i h1 h2
      cases hr : v.reserveF copy alloc n with
      | error e =>
        simp only [hr]
        rw [reserveF_error copy alloc n v e hr]
        exact hv
      | ok u =>
        obtain ⟨hs, hc1, hc2⟩ := reserveF_ok copy alloc n v u hr
        simp only [hr]
        split
        · simp only [afterState, Vector.Wf, Vector.size, List.length_append,
            List.length_replicate] at *
          omega
        · show u.Wf
          simp only [Vector.Wf, Vector.size] at *
          omega

theorem wf_emplaceShiftF (k : Nat) (v : Vector α) (hv : v.Wf) :
    (v.emplaceShiftF k).Wf := by
  simp only [Vector.emplaceShiftF, Vector.Wf, Vector.size] at *
  rw [partialShiftR_length]
  exact hv

theorem wf_eraseShiftF (p k : Nat) (v : Vector α) (hv : v.Wf) :
    (v.eraseShiftF p k).Wf := by
  have h := eraseShiftF_length_le v p k
  simp only [Vector.eraseShiftF, Vector.Wf, Vector.size] at *
  omega

theorem wf_copyAssignF (copy : α → Option α) (dst src : Vector α) (k : Nat)
    (hdst : dst.Wf) :
    (afterState (Vector.copyAssignF copy dst src k)).Wf := by
  unfold Vector.copyAssignF
  split
  · cases hys : uninitializedCopyN copy src.elems with
    | none => simpa [afterState] using hdst
    | some ys =>
      have hl := uninitializedCopyN_length copy src.elems ys hys
      simp only [afterState, Vector.Wf, Vector.size] at *
      omega
  · rename_i hfit
    split
    · rename_i hk
      simp only [afterState, Vector.Wf, Vector.size, List.length_append,
        List.length_take, List.length_drop] at *
      omega
    · split
      · rename_i hk hle
        simp only [afterState, Vector.Wf, Vector.size] at *
        omega
      · rename_i hk hgt
        cases hys : uninitializedCopyN copy (src.elems.drop dst.size) with
        | none =>
          simp only [afterState, Vector.Wf, Vector.size,
            List.length_take] at *
          omega
        | some ys =>
          have hl := uninitializedCopyN_length copy (src.elems.drop dst.size)
            ys hys
          simp only [afterState, Vector.Wf, Vector.size, List.length_append,
            List.length_take, List.length_drop] at *
          omega

/-- C1: for every container state with `0 ≤ size ≤ capacity` (`Wf`) and every
public operation — default/size/copy/move construction, copy/move assignment,
`Swap`, `Reserve`, `Resize`, `PushBack`, `EmplaceBack`, `PopBack`, `Insert`,
`Emplace`, `Erase` — the resulting state again satisfies `0 ≤ size ≤ capacity`,
including on every failure path (allocation failure, element construction
failure, element copy failure during a growth transfer, and a failed
move-assignment partway through the shifting loops of `Emplace` and `Erase`,
all covered by the `...F` fallible models via `afterState`). -/
theorem C1_invariant_all_operations (v w : Vector α) (x d : α)
    (copy : α → Option α) (alloc ctorOk : Bool) (mk : Option α) (n p k : Nat)
    (hv : v.Wf) (hw : w.Wf) :
    (Vector.mkDefault α).Wf ∧
    (Vector.mkSized d n).Wf ∧
    v.copyCtor.Wf ∧
    (v.moveCtor).1.Wf ∧
    (v.moveCtor).2.Wf ∧
    (Vector.copyAssign v w).Wf ∧
    (Vector.moveAssign v w).1.Wf ∧
    (Vector.moveAssign v w).2.Wf ∧
    (Vector.swapOp v w).1.Wf ∧
    (Vector.swapOp v w).2.Wf ∧
    (v.Reserve n).Wf ∧
    (v.Resize d n).Wf ∧
    (v.PushBack x).Wf ∧
    (v.EmplaceBack x).Wf ∧
    v.PopBack.Wf ∧
    (v.Insert p x).Wf ∧
    (v.Emplace p x).Wf ∧
    (v.Erase p).Wf ∧
    (afterState (v.reserveF copy alloc n)).Wf ∧
    (afterState (v.emplaceBackF copy alloc mk)).Wf ∧
    (afterState (v.emplaceF copy alloc mk p)).Wf ∧
    (afterState (v.resizeF copy alloc ctorOk d n)).Wf ∧
    (v.emplaceShiftF k).Wf ∧
    (v.eraseShiftF p k).Wf ∧
    (afterState (Vector.copyAssignF copy v w k)).Wf :=
  ⟨wf_mkDefault, wf_mkSized d n, wf_copyCtor v,
   (wf_moveCtor v hv).1, (wf_moveCtor v hv).2,
   wf_copyAssign v w,
   (wf_moveAssign v w hw).1, (wf_moveAssign v w hw).2,
   hw, hv,
   wf_Reserve n v hv, wf_Resize d n v hv,
   wf_EmplaceBack x v hv, wf_EmplaceBack x v hv,
   wf_PopBack v hv,
   wf_Emplace p x v hv, wf_Emplace p x v hv,
   wf_Erase p v hv,
   wf_reserveF copy alloc n v hv,
   wf_emplaceBackF copy alloc mk v hv,
   wf_emplaceF copy alloc mk p v hv,
   wf_resizeF copy alloc ctorOk d n v hv,
   wf_emplaceShiftF k v hv,
   wf_eraseShiftF p k v hv,
   wf_copyAssignF copy v w k hv⟩

theorem C1_witness : ((⟨[1], 2⟩ : Vector Nat).EmplaceBack 7).Wf := by
  have h := C1_invariant_all_operations (⟨[1], 2⟩ : Vector Nat) ⟨[2, 3], 2⟩ 7 0
    (fun y => some y) true true (some 5) 3 1 1 (by decide) (by decide)
  exact h.2.2.2.2.2.2.2.2.2.2.2.2.2.1

/-- C2 counterexample: on a full one-element vector `[7]` with capacity 1,
`PushBack(5)` (element copies fail on the value 7) constructs the new element
`5` at offset 1 of the new buffer, then the transfer of `7` fails; unwinding
frees the new buffer without destroying the constructed `5`, so a temporary
is leaked in the new buffer, contrary to the claim. -/
theorem C2_counterexample :
    (⟨[7], 1⟩ : Vector Nat).emplaceBackF
        (fun y => if y = 7 then none else some y) true (some 5) =
      .error (⟨[7], 1⟩, [5]) ∧
    leakedObjs ((⟨[7], 1⟩ : Vector Nat).emplaceBackF
        (fun y => if y = 7 then none else some y) true (some 5)) ≠ [] := by
  refine ⟨rfl, ?_⟩
  decide

/-- C2 (amended): when a growth-path operation fails, the original vector is
returned completely unchanged with no old element destroyed; `Reserve` leaks
nothing, but `PushBack`/`EmplaceBack` may leak exactly the pre-constructed new
element (precisely when the transfer fails), and capacity-triggered
`Emplace`/`Insert` may additionally leak the already-copied prefix when the
suffix transfer fails. -/
theorem C2_growth_failure_spec (copy : α → Option α) (alloc : Bool)
    (mk : Option α) (n p : Nat) (v : Vector α) :
    (∀ e, v.reserveF copy alloc n = .error e → e = (v, [])) ∧
    (∀ e, v.emplaceBackF copy alloc mk = .error e →
      e.1 = v ∧ (e.2 = [] ∨ ∃ y, mk = some y ∧ e.2 = [y])) ∧
    (∀ e, v.emplaceF copy alloc mk p = .error e →
      e.1 = v ∧ (e.2 = [] ∨ ∃ y, mk = some y ∧
        (e.2 = [y] ∨ ∃ pre,
          uninitializedCopyN copy (v.elems.take p) = some pre ∧
          e.2 = y :: pre))) := by
  refine ⟨fun e h => reserveF_error copy alloc n v e h, fun e h => ?_, fun e h => ?_⟩
  · rcases emplaceBackF_error copy alloc mk v e h with h1 | ⟨y, hy, h1⟩
    · subst h1; exact ⟨rfl, .inl rfl⟩
    · subst h1; exact ⟨rfl, .inr ⟨y, hy, rfl⟩⟩
  · rcases emplaceF_error copy alloc mk p v e h with
      h1 | ⟨y, hy, h1 | ⟨pre, hpre, h1⟩⟩
    · subst h1; exact ⟨rfl, .inl rfl⟩
    · subst h1; exact ⟨rfl, .inr ⟨y, hy, .inl rfl⟩⟩
    · subst h1; exact ⟨rfl, .inr ⟨y, hy, .inr ⟨pre, hpre, rfl⟩⟩⟩

theorem C2_witness :
    (⟨[7], 1⟩ : Vector Nat) = ⟨[7], 1⟩ ∧
    (([5] : List Nat) = [] ∨ ∃ y, (some 5 : Option Nat) = some y ∧ [5] = [y]) :=
  (C2_growth_failure_spec (fun y => if y = 7 then none else some y) true
    (some 5) 0 0 ⟨[7], 1⟩).2.1 (⟨[7], 1⟩, [5]) (by rfl)

/-- C3: on a full vector (`size() == capacity()`), `PushBack`/`EmplaceBack`
grows the capacity to `max(1, capacity() * 2)`, increments the size, appends
the new element at index old `size()`, keeps every previously live element at
its index, and returns a reference to the newly constructed element. -/
theorem C3_pushBack_growth (v : Vector α) (x : α) (h : v.size = v.cap) :
    (v.EmplaceBack x).cap = max 1 (v.cap * 2) ∧
    (v.EmplaceBack x).size = v.size + 1 ∧
    (v.EmplaceBack x).elems[v.size]? = some x ∧
    (∀ i, i < v.size → (v.EmplaceBack x).elems[i]? = v.elems[i]?) ∧
    v.emplaceBackRef x = some x ∧
    v.PushBack x = v.EmplaceBack x := by
  have he : v.EmplaceBack x =
      ⟨v.elems ++ [x], if v.size = 0 then 1 else v.size * 2⟩ := by
    unfold Vector.EmplaceBack
    rw [if_pos h]
  refine ⟨?_, ?_, ?_, ?_, ?_, rfl⟩
  · rw [he]
    show (if v.size = 0 then 1 else v.size * 2) = max 1 (v.cap * 2)
    rw [← h]
    split <;> omega
  · rw [he]
    simp [Vector.size]
  · rw [he]
    show (v.elems ++ [x])[v.size]? = some x
    exact List.getElem?_concat_length v.elems x
  · intro i hi
    rw [he]
    show (v.elems ++ [x])[i]? = v.elems[i]?
    exact List.getElem?_append_left hi
  · unfold Vector.emplaceBackRef
    rw [he]
    show (v.elems ++ [x])[(v.elems ++ [x]).length - 1]? = some x
    simp only [List.length_append, List.length_cons, List.length_nil,
      Nat.add_sub_cancel]
    exact List.getElem?_concat_length v.elems x

theorem C3_witness :
    ((⟨[9], 1⟩ : Vector Nat).EmplaceBack 4).cap = max 1 (1 * 2) ∧
    ((⟨[9], 1⟩ : Vector Nat).EmplaceBack 4).elems[1]? = some 4 := by
  have h := C3_pushBack_growth (⟨[9], 1⟩ : Vector Nat) 4 (by decide)
  exact ⟨h.1, h.2.2.1⟩

/-- C4: `Reserve(newCapacity)` with `newCapacity <= Capacity()` leaves the
vector entirely unchanged; with `newCapacity > Capacity()` it yields exactly
that capacity with the size and elements unchanged. -/
theorem C4_reserve_spec (v : Vector α) (n : Nat) :
    (n ≤ v.cap → v.Reserve n = v) ∧
    (v.cap < n → (v.Reserve n).cap = n ∧ (v.Reserve n).size = v.size ∧
      (v.Reserve n).elems = v.elems) := by
  constructor
  · intro h
    unfold Vector.Reserve
    rw [if_pos h]
  · intro h
    unfold Vector.Reserve
    rw [if_neg (by omega)]
    exact ⟨rfl, rfl, rfl⟩

theorem C4_witness :
    Vector.Reserve 1 (⟨[5, 6], 3⟩ : Vector Nat) = ⟨[5, 6], 3⟩ ∧
    (Vector.Reserve 7 (⟨[5, 6], 3⟩ : Vector Nat)).cap = 7 :=
  ⟨(C4_reserve_spec (⟨[5, 6], 3⟩ : Vector Nat) 1).1 (by decide),
   ((C4_reserve_spec (⟨[5, 6], 3⟩ : Vector Nat) 7).2 (by decide)).1⟩

theorem Emplace_elems (p : Nat) (x : α) (v : Vector α) (hv : v.Wf) :
    (v.Emplace p x).elems = v.elems.take p ++ x :: v.elems.drop p := by
  unfold Vector.Emplace
  split
  · rfl
  · split
    · split
      · rename_i h1 h2 h3
        subst h3
        simp [Vector.size]
      · rfl
    · rename_i h1 h2
      exfalso
      simp only [Vector.Wf, Vector.size] at hv h1 h2
      omega

theorem takeDropInsert (x : α) : ∀ (p : Nat) (l : List α), p ≤ l.length →
    (l.take p ++ x :: l.drop p).take p ++ (l.take p ++ x :: l.drop p).drop (p + 1) = l := by
  intro p
  induction p with
  | zero =>
    intro l _
    simp
  | succ q ih =>
    intro l hl
    cases l with
    | nil => simp at hl
    | cons a t =>
      simp only [List.take_succ_cons, List.drop_succ_cons, List.cons_append]
      rw [ih t (by simpa using hl)]

/-- C5: inserting any value at any position `p ≤ size()` and then erasing at
the same position restores the original element sequence exactly. -/
theorem C5_insert_erase_roundtrip (v : Vector α) (x : α) (p : Nat)
    (hv : v.Wf) (hp : p ≤ v.size) :
    ((v.Insert p x).Erase p).elems = v.elems := by
  show ((v.Emplace p x).Erase p).elems = v.elems
  unfold Vector.Erase
  show (v.Emplace p x).elems.take p ++ (v.Emplace p x).elems.drop (p + 1) = v.elems
  rw [Emplace_elems p x v hv]
  exact takeDropInsert x p v.elems hp

theorem C5_witness :
    ((Vector.Insert 1 9 (⟨[1, 2, 3], 3⟩ : Vector Nat)).Erase 1).elems = [1, 2, 3] :=
  C5_insert_erase_roundtrip (⟨[1, 2, 3], 3⟩ : Vector Nat) 9 1 (by decide) (by decide)

/-- C6: `Resize(newSize)` truncates to the first `newSize` elements when
shrinking, ensures capacity and value-constructs the new tail slots when
growing, is a no-op at equal size, and always ends with `size() == newSize`;
concretely, `Resize(5)` on `[7,8]` (capacity 2) yields `[7,8,0,0,0]` and then
`Resize(1)` yields `[7]`. -/
theorem C6_resize_spec (v : Vector α) (d : α) (n : Nat) :
    (n < v.size → (v.Resize d n).elems = v.elems.take n) ∧
    (v.size < n → n ≤ (v.Resize d n).cap ∧
      (v.Resize d n).elems = v.elems ++ List.replicate (n - v.size) d) ∧
    (n = v.size → v.Resize d n = v) ∧
    (v.Resize d n).size = n ∧
    Vector.Resize 0 5 (⟨[7, 8], 2⟩ : Vector Nat) = ⟨[7, 8, 0, 0, 0], 5⟩ ∧
    Vector.Resize 0 1 (⟨[7, 8, 0, 0, 0], 5⟩ : Vector Nat) = ⟨[7], 5⟩ := by
  refine ⟨?_, ?_, ?_, ?_, by decide, by decide⟩
  · intro h
    unfold Vector.Resize
    rw [if_neg (by omega), if_pos h]
  · intro h
    unfold Vector.Resize
    rw [if_neg (by omega), if_neg (by omega)]
    exact ⟨(cap_le_Reserve n v).2, rfl⟩
  · intro h
    unfold Vector.Resize
    rw [if_pos h]
  · unfold Vector.Resize
    split
    · rename_i h
      exact h.symm
    · split
      · rename_i h1 h2
        simp only [Vector.size, List.length_take] at h1 h2 ⊢
        omega
      · rename_i h1 h2
        simp only [Vector.size, List.length_append, List.length_replicate] at h1 h2 ⊢
        omega

theorem C6_witness :
    (Vector.Resize 0 1 (⟨[7, 8], 2⟩ : Vector Nat)).elems = List.take 1 [7, 8] :=
  (C6_resize_spec (⟨[7, 8], 2⟩ : Vector Nat) 0 1).1 (by decide)

/-- C7: `Erase` at a valid position `p` shifts each element at index
`i ∈ (p, size)` down to `i - 1`, keeps the elements before `p`, destroys the
final slot (size decreases by one, capacity unchanged), and returns the
position now holding the successor element — which coincides with the end
marker (offset `size - 1`) exactly when the erased element was the last. -/
theorem C7_erase_spec (v : Vector α) (p : Nat) (hv : v.Wf) (hp : p < v.size) :
    (v.Erase p).size = v.size - 1 ∧
    (∀ i, i < p → (v.Erase p).elems[i]? = v.elems[i]?) ∧
    (∀ i, p < i → i < v.size → (v.Erase p).elems[i - 1]? = v.elems[i]?) ∧
    (v.Erase p).cap = v.cap ∧
    v.eraseRet p = p ∧
    (p = (v.Erase p).size → v.eraseRet p = (v.Erase p).size) := by
  have hlen : (v.elems.take p).length = p := by
    simp only [List.length_take]
    simp only [Vector.size] at hp
    omega
  have hsize : (v.Erase p).size = v.size - 1 := by
    simp only [Vector.Erase, Vector.size, List.length_append, List.length_take,
      List.length_drop] at *
    omega
  refine ⟨hsize, ?_, ?_, rfl, ?_, ?_⟩
  · intro i hi
    show (v.elems.take p ++ v.elems.drop (p + 1))[i]? = v.elems[i]?
    rw [List.getElem?_append_left (by omega), List.getElem?_take_of_lt hi]
  · intro i hpi hin
    show (v.elems.take p ++ v.elems.drop (p + 1))[i - 1]? = v.elems[i]?
    rw [List.getElem?_append_right (by omega), hlen, List.getElem?_drop]
    congr 1
    omega
  · unfold Vector.eraseRet
    split
    · rename_i h
      rw [hsize] at h
      simp only [Vector.size] at *
      omega
    · rfl
  · intro h
    unfold Vector.eraseRet
    rw [← h]
    split <;> rfl

theorem C7_witness :
    ((⟨[1, 2, 3], 4⟩ : Vector Nat).Erase 1).size = 3 - 1 ∧
    (⟨[1, 2, 3], 4⟩ : Vector Nat).eraseRet 1 = 1 := by
  have h := C7_erase_spec (⟨[1, 2, 3], 4⟩ : Vector Nat) 1 (by decide) (by decide)
  exact ⟨h.1, h.2.2.2.2.1⟩

/-- C8: move construction transfers elements, size and capacity to the new
vector and leaves the moved-from source with size 0 and capacity 0. -/
theorem C8_move_construction (v : Vector α) :
    (v.moveCtor).1.elems = v.elems ∧ (v.moveCtor).1.size = v.size ∧
    (v.moveCtor).1.cap = v.cap ∧
    (v.moveCtor).2.size = 0 ∧ (v.moveCtor).2.cap = 0 :=
  ⟨rfl, rfl, rfl, rfl, rfl⟩

/-- C9: copy construction allocates a buffer of exactly `other.size_` slots
(not `other.Capacity()`), so the copy has `capacity() == size() ==
source.size()` even when the source has spare capacity. -/
theorem C9_copy_ctor_capacity (v : Vector α) :
    v.copyCtor.cap = v.size ∧ v.copyCtor.size = v.size ∧
    v.copyCtor.elems = v.elems :=
  ⟨rfl, rfl, rfl⟩

/-- C10: the shrinking operations `PopBack`, `Erase` and `Resize` to a
smaller size never change the capacity. -/
theorem C10_shrink_keeps_capacity (v : Vector α) (d : α) (n p : Nat)
    (hpop : 0 < v.size) (hp : p < v.size) (hn : n < v.size) :
    v.PopBack.cap = v.cap ∧ (v.Erase p).cap = v.cap ∧
    (v.Resize d n).cap = v.cap := by
  refine ⟨rfl, rfl, ?_⟩
  unfold Vector.Resize
  rw [if_neg (by omega), if_pos hn]

theorem C10_witness :
    (Vector.PopBack (⟨[1, 2], 4⟩ : Vector Nat)).cap = 4 ∧
    ((⟨[1, 2], 4⟩ : Vector Nat).Erase 0).cap = 4 ∧
    (Vector.Resize 0 1 (⟨[1, 2], 4⟩ : Vector Nat)).cap = 4 :=
  C10_shrink_keeps_capacity (⟨[1, 2], 4⟩ : Vector Nat) 0 1 0
    (by decide) (by decide) (by decide)

end VecModel
